import Mathlib

/-!
Verification development for the slack-bridge repository.

The definitions below are shallow embeddings of the insights pipeline of
`src/server.js` (config parsing, `isEligibleForInsights`,
`sanitizeTextForInsights`, `isNumericOrDateOnly`, `extractKeywords`,
`processInsightsSignal` call structure) and of the multi-label
`classifySentiment` of the later revisions (`src/unnamed/part_000`,
`src/unnamed/part_002`).

Regular-expression replacement steps are embedded through a small
backtracking matcher (`reMatchSeq`) that mimics the JavaScript regex
semantics (leftmost match, greedy bounded quantifiers with backtracking,
word-boundary assertions) for the specific patterns the source uses.
Character classes are modelled on their ASCII fragment: `\w` is
`[A-Za-z0-9_]` exactly as in JavaScript, `\s` is modelled by the common
whitespace characters, and the Unicode classes `\p{L}\p{N}` of the later
revisions are modelled by ASCII alphanumerics.
-/

namespace SlackBridge

/-- JavaScript `\w`: `[A-Za-z0-9_]`. -/
def wordChar (c : Char) : Bool := c.isAlphanum || c = '_'

/-- JavaScript `\d`. -/
def digitChar (c : Char) : Bool := c.isDigit

/-- JavaScript `\s`, modelled by the common whitespace characters. -/
def spaceChar (c : Char) : Bool :=
  c = ' ' || c = '\t' || c = '\n' || c = '\r' || c = '\x0b' || c = '\x0c'

/-- Separator class `[-.\s]` of the phone-number pattern. -/
def sepChar (c : Char) : Bool := c = '-' || c = '.' || spaceChar c

/-- Separator class `[/.-]` (dot, slash or hyphen) of the date pattern. -/
def dateSep (c : Char) : Bool := c = '.' || c = '/' || c = '-'

/-- One element of a regular expression: a greedy bounded character-class
repetition `p{lo,hi}` (`hi = none` meaning unbounded), or a word-boundary
assertion `\b`. Single literal characters are classes with `lo = hi = 1`. -/
inductive RElem where
  | cls (p : Char → Bool) (lo : Nat) (hi : Option Nat)
  | wb

/-- Length of the maximal prefix of `s` whose characters satisfy `p`. -/
def maxRun (p : Char → Bool) : List Char → Nat
  | [] => 0
  | c :: cs => if p c then maxRun p cs + 1 else 0

/-- Is there a word boundary between the previous character and the head of
`s`?  String edges count as non-word. -/
def atBoundary (prev : Option Char) (s : List Char) : Bool :=
  let l := match prev with | none => false | some c => wordChar c
  let r := match s with | [] => false | c :: _ => wordChar c
  l != r

/-- Previous character after consuming `taken` (falling back to `prev` when
nothing was consumed). -/
def newPrev (prev : Option Char) (taken : List Char) : Option Char :=
  match taken.getLast? with
  | some c => some c
  | none => prev

/-- Greedy backtracking step for one bounded character class: let it consume
exactly `k` characters of `s` and hand the rest to the continuation `next`
(the matcher for the remaining pattern elements), decreasing `k` on failure
(greedy backtracking), never below `lo`. -/
def tryWith (next : Option Char → List Char → Option (List Char × List Char))
    (prev : Option Char) (s : List Char) : Nat → Nat → Option (List Char × List Char)
  | k, lo =>
    if k < lo then none
    else
      match next (newPrev prev (s.take k)) (s.drop k) with
      | some (m, rest) => some (s.take k ++ m, rest)
      | none =>
          match k with
          | 0 => none
          | k' + 1 => tryWith next prev s k' lo

/-- Backtracking matcher for a sequence of regex elements, anchored at the
start of `s`.  Returns the consumed prefix and the rest on success.
`prev` is the character just before `s` in the overall subject string
(used by `\b`). -/
def reMatchSeq : List RElem → Option Char → List Char → Option (List Char × List Char)
  | [], _, s => some ([], s)
  | .wb :: ps, prev, s =>
      if atBoundary prev s then reMatchSeq ps prev s else none
  | .cls p lo hi :: ps, prev, s =>
      let run := maxRun p s
      let top := match hi with | some h => min h run | none => run
      tryWith (fun prev' s' => reMatchSeq ps prev' s') prev s top lo

/-- Leftmost match search: returns `(before, matched, rest)` such that the
subject is `before ++ matched ++ rest` and `matched` is the leftmost
match of the pattern. -/
def reFind (pat : List RElem) (prev : Option Char) :
    List Char → Option (List Char × List Char × List Char)
  | [] =>
      match reMatchSeq pat prev [] with
      | some (m, rest) => some ([], m, rest)
      | none => none
  | c :: cs =>
      match reMatchSeq pat prev (c :: cs) with
      | some (m, rest) => some ([], m, rest)
      | none =>
          match reFind pat (some c) cs with
          | some (b, m, rest) => some (c :: b, m, rest)
          | none => none

/-- Global replace of every match of `pat` by a single space, scanning left
to right exactly as JavaScript `String.replace(/pat/g, " ")`.  The fuel is
an upper bound on the number of matches; every pattern used here consumes
at least one character per match, so `s.length + 1` fuel never runs out. -/
def reReplAux (pat : List RElem) (prev : Option Char) (s : List Char) :
    Nat → List Char
  | 0 => s
  | fuel + 1 =>
      match reFind pat prev s with
      | none => s
      | some (b, m, rest) =>
          b ++ ' ' :: reReplAux pat (newPrev (newPrev prev b) m) rest fuel

/-- `s.replace(/pat/g, " ")`. -/
def reReplaceAll (pat : List RElem) (s : List Char) : List Char :=
  reReplAux pat none s (s.length + 1)

/-- `/<@[\w]+>/g` (server.js line 211). -/
def mentionUserPat : List RElem :=
  [.cls (· = '<') 1 (some 1), .cls (· = '@') 1 (some 1),
   .cls wordChar 1 none, .cls (· = '>') 1 (some 1)]

/-- `/<#[\w]+>/g` (server.js line 212). -/
def mentionChanPat : List RElem :=
  [.cls (· = '<') 1 (some 1), .cls (· = '#') 1 (some 1),
   .cls wordChar 1 none, .cls (· = '>') 1 (some 1)]

/-- `/https?:\/\/\S+/gi` (server.js line 215). -/
def urlPat : List RElem :=
  [.cls (fun c => c = 'h' || c = 'H') 1 (some 1),
   .cls (fun c => c = 't' || c = 'T') 1 (some 1),
   .cls (fun c => c = 't' || c = 'T') 1 (some 1),
   .cls (fun c => c = 'p' || c = 'P') 1 (some 1),
   .cls (fun c => c = 's' || c = 'S') 0 (some 1),
   .cls (· = ':') 1 (some 1),
   .cls (· = '/') 1 (some 1),
   .cls (· = '/') 1 (some 1),
   .cls (fun c => !spaceChar c) 1 none]

/-- `/[\w.+-]+@[\w.-]+/gi` (server.js line 218). -/
def emailPat : List RElem :=
  [.cls (fun c => wordChar c || c = '.' || c = '+' || c = '-') 1 none,
   .cls (· = '@') 1 (some 1),
   .cls (fun c => wordChar c || c = '.' || c = '-') 1 none]

/-- `/\b\+?\d{1,3}[-.\s]?\d{2,4}[-.\s]?\d{3,4}[-.\s]?\d{0,4}\b/g`
(server.js line 221). -/
def phonePat : List RElem :=
  [.wb, .cls (· = '+') 0 (some 1),
   .cls digitChar 1 (some 3), .cls sepChar 0 (some 1),
   .cls digitChar 2 (some 4), .cls sepChar 0 (some 1),
   .cls digitChar 3 (some 4), .cls sepChar 0 (some 1),
   .cls digitChar 0 (some 4), .wb]

/-- `\b\d{1,2}[/.-]\d{1,2}[/.-]\d{2,4}\b` applied globally (server.js
line 224; the separator class is written dot, slash, hyphen there). -/
def datePat : List RElem :=
  [.wb, .cls digitChar 1 (some 2), .cls dateSep 1 (some 1),
   .cls digitChar 1 (some 2), .cls dateSep 1 (some 1),
   .cls digitChar 2 (some 4), .wb]

/-- `/\b\d{4,}\b/g` (server.js line 227). -/
def longDigitsPat : List RElem :=
  [.wb, .cls digitChar 4 none, .wb]

/-- `sanitized.replace(/[^\w\s]/g, " ")` (server.js line 230): a single-char
class replace is a character map. -/
def stripPunct (s : List Char) : List Char :=
  s.map (fun c => if wordChar c || spaceChar c then c else ' ')

/-- `sanitized.replace(/\s+/g, " ")` (server.js line 233): each maximal run
of whitespace becomes one space (emitted when the run ends). -/
def collapseData : List Char → List Char
  | [] => []
  | [c] => if spaceChar c then [' '] else [c]
  | c :: d :: cs =>
      if spaceChar c then
        (if spaceChar d then collapseData (d :: cs) else ' ' :: collapseData (d :: cs))
      else c :: collapseData (d :: cs)

/-- Remove trailing whitespace. -/
def trimTrail : List Char → List Char
  | [] => []
  | c :: cs =>
      if trimTrail cs = [] then (if spaceChar c then [] else [c])
      else c :: trimTrail cs

/-- JavaScript `String.trim()`. -/
def trimData (s : List Char) : List Char :=
  trimTrail (s.dropWhile spaceChar)

/-- `sanitizeTextForInsights` (server.js lines 204-236): the eight regex
replacement steps in source order, then whitespace collapsing and trim.
(The `if (!text) return ""` guard is the identity on the empty string and
is subsumed by the steps below.) -/
def sanitizeData (s : List Char) : List Char :=
  trimData (collapseData (stripPunct
    (reReplaceAll longDigitsPat
      (reReplaceAll datePat
        (reReplaceAll phonePat
          (reReplaceAll emailPat
            (reReplaceAll urlPat
              (reReplaceAll mentionChanPat
                (reReplaceAll mentionUserPat s)))))))))

/-- `sanitizeTextForInsights` on `String`. -/
def sanitizeTextForInsights (t : String) : String :=
  ⟨sanitizeData t.data⟩

/-- Does `s` start with the run `m`? -/
def beginsWith : List Char → List Char → Bool
  | [], _ => true
  | _ :: _, [] => false
  | a :: as, b :: bs => a == b && beginsWith as bs

/-- Does `m` occur contiguously inside `s`? -/
def hasRun (m : List Char) : List Char → Bool
  | [] => beginsWith m []
  | c :: cs => beginsWith m (c :: cs) || hasRun m cs

theorem tryWith_append (next : Option Char → List Char → Option (List Char × List Char))
    (IH : ∀ prev' s' m' r', next prev' s' = some (m', r') → s' = m' ++ r') :
    ∀ k prev s lo m r, tryWith next prev s k lo = some (m, r) → s = m ++ r := by
  intro k
  induction k with
  | zero =>
    intro prev s lo m r h
    rw [tryWith] at h
    split at h
    · exact absurd h (by simp)
    · simp only [List.take_zero, List.drop_zero] at h
      cases hm : next (newPrev prev []) s with
      | none => rw [hm] at h; exact absurd h (by simp)
      | some pr =>
        obtain ⟨m', r'⟩ := pr
        rw [hm] at h
        simp only [List.nil_append, Option.some.injEq, Prod.mk.injEq] at h
        obtain ⟨hm', hr'⟩ := h
        subst hm' hr'
        exact IH _ _ _ _ hm
  | succ k ih =>
    intro prev s lo m r h
    rw [tryWith] at h
    split at h
    · exact absurd h (by simp)
    · cases hm : next (newPrev prev (s.take k.succ)) (s.drop k.succ) with
      | none =>
        rw [hm] at h
        exact ih prev s lo m r h
      | some pr =>
        obtain ⟨m', r'⟩ := pr
        rw [hm] at h
        simp only [Option.some.injEq, Prod.mk.injEq] at h
        obtain ⟨hm', hr'⟩ := h
        subst hm' hr'
        have hd : s.drop k.succ = m' ++ r' := IH _ _ _ _ hm
        rw [List.append_assoc, ← hd, List.take_append_drop]

/-- A successful anchored match consumes a prefix: the subject splits as
consumed ++ rest. -/
theorem reMatchSeq_append :
    ∀ ps prev s m r, reMatchSeq ps prev s = some (m, r) → s = m ++ r := by
  intro ps
  induction ps with
  | nil =>
    intro prev s m r h
    simp only [reMatchSeq] at h
    simp only [Option.some.injEq, Prod.mk.injEq] at h
    obtain ⟨hm, hr⟩ := h
    subst hm hr
    simp
  | cons e ps ih =>
    intro prev s m r h
    cases e with
    | wb =>
      simp only [reMatchSeq] at h
      split at h
      · exact ih _ _ _ _ h
      · exact absurd h (by simp)
    | cls p lo hi =>
      rw [reMatchSeq.eq_def] at h
      exact tryWith_append (fun prev' s' => reMatchSeq ps prev' s')
        (fun prev' s' m' r' hx => ih prev' s' m' r' hx) _ _ _ _ _ _ h

theorem reMatchSeq_nil (prev : Option Char) (s : List Char) :
    reMatchSeq [] prev s = some ([], s) := by
  rw [reMatchSeq.eq_def]

theorem reMatchSeq_wb (ps : List RElem) (prev : Option Char) (s : List Char) :
    reMatchSeq (.wb :: ps) prev s =
      if atBoundary prev s then reMatchSeq ps prev s else none := by
  rw [reMatchSeq.eq_def]

theorem reMatchSeq_cls (p : Char → Bool) (lo : Nat) (hi : Option Nat)
    (ps : List RElem) (prev : Option Char) (s : List Char) :
    reMatchSeq (.cls p lo hi :: ps) prev s =
      tryWith (fun prev' s' => reMatchSeq ps prev' s') prev s
        (match hi with | some h => min h (maxRun p s) | none => maxRun p s) lo := by
  rw [reMatchSeq.eq_def]

theorem maxRun_le (p : Char → Bool) : ∀ s : List Char, maxRun p s ≤ s.length := by
  intro s
  induction s with
  | nil => simp [maxRun]
  | cons c cs ih =>
    simp only [maxRun, List.length_cons]
    split
    · omega
    · omega

theorem maxRun_take (p : Char → Bool) :
    ∀ (s : List Char) (k : Nat), k ≤ maxRun p s → ∀ c ∈ s.take k, p c = true := by
  intro s
  induction s with
  | nil => intro k _ c hc; simp at hc
  | cons a cs ih =>
    intro k hk c hc
    cases k with
    | zero => simp at hc
    | succ k =>
      simp only [maxRun] at hk
      by_cases hp : p a
      · rw [if_pos hp] at hk
        simp only [List.take_succ_cons, List.mem_cons] at hc
        rcases hc with rfl | hc
        · exact hp
        · exact ih k (by omega) c hc
      · rw [if_neg hp] at hk; omega

theorem tryWith_decomp (p : Char → Bool)
    (next : Option Char → List Char → Option (List Char × List Char))
    (hnext : ∀ prev' s' m' r', next prev' s' = some (m', r') → s' = m' ++ r') :
    ∀ (k : Nat) (prev : Option Char) (s : List Char) (lo : Nat) (m r : List Char),
      k ≤ s.length → (∀ c ∈ s.take k, p c = true) →
      tryWith next prev s k lo = some (m, r) →
      ∃ m1 m2 prev', m = m1 ++ m2 ∧ (∀ c ∈ m1, p c = true) ∧ lo ≤ m1.length ∧
        next prev' (m2 ++ r) = some (m2, r) := by
  intro k
  induction k with
  | zero =>
    intro prev s lo m r _ hp h
    rw [tryWith] at h
    split at h
    · exact absurd h (by simp)
    · simp only [List.take_zero, List.drop_zero] at h
      cases hm : next (newPrev prev []) s with
      | none => rw [hm] at h; exact absurd h (by simp)
      | some pr =>
        obtain ⟨m', r'⟩ := pr
        rw [hm] at h
        simp only [List.nil_append, Option.some.injEq, Prod.mk.injEq] at h
        obtain ⟨h1, h2⟩ := h
        have hs : s = m ++ r := by
          rw [← h1, ← h2]; exact hnext _ _ _ _ hm
        refine ⟨[], m, newPrev prev [], by simp, by simp, by omega, ?_⟩
        rw [h1, h2] at hm
        rw [← hs]
        exact hm
  | succ k ih =>
    intro prev s lo m r hk hp h
    rw [tryWith] at h
    split at h
    · exact absurd h (by simp)
    · rename_i hklo
      cases hm : next (newPrev prev (s.take k.succ)) (s.drop k.succ) with
      | none =>
        rw [hm] at h
        have hp' : ∀ c ∈ s.take k, p c = true := by
          intro c hc
          apply hp
          have hTk : s.take k = (s.take k.succ).take k := by
            rw [List.take_take]; congr 1; omega
          rw [hTk] at hc
          exact List.take_subset _ _ hc
        exact ih prev s lo m r (by omega) hp' h
      | some pr =>
        obtain ⟨m', r'⟩ := pr
        rw [hm] at h
        simp only [Option.some.injEq, Prod.mk.injEq] at h
        obtain ⟨h1, h2⟩ := h
        rw [h2] at hm
        have hd : s.drop k.succ = m' ++ r := hnext _ _ _ _ hm
        refine ⟨s.take k.succ, m', newPrev prev (s.take k.succ), h1.symm, hp, ?_, ?_⟩
        · rw [List.length_take]
          omega
        · rw [← hd]
          exact hm

theorem reMatchSeq_cls_decomp (p : Char → Bool) (lo : Nat) (hi : Option Nat)
    (ps : List RElem) (prev : Option Char) (s m r : List Char)
    (h : reMatchSeq (.cls p lo hi :: ps) prev s = some (m, r)) :
    ∃ m1 m2 prev', m = m1 ++ m2 ∧ (∀ c ∈ m1, p c = true) ∧ lo ≤ m1.length ∧
      reMatchSeq ps prev' (m2 ++ r) = some (m2, r) := by
  rw [reMatchSeq_cls] at h
  set top := (match hi with | some h => min h (maxRun p s) | none => maxRun p s) with htop
  have htop_run : top ≤ maxRun p s := by
    rw [htop]; cases hi <;> simp
  refine tryWith_decomp p (fun prev' s' => reMatchSeq ps prev' s')
    (fun prev' s' m' r' hx => reMatchSeq_append ps prev' s' m' r' hx)
    top prev s lo m r ?_ ?_ h
  · exact le_trans htop_run (maxRun_le p s)
  · exact maxRun_take p s top htop_run

/-- If the pattern contains a mandatory character class, every match
contains a character of that class. -/
theorem reMatchSeq_hits :
    ∀ (l1 : List RElem) (p : Char → Bool) (lo : Nat) (hi : Option Nat)
      (l2 : List RElem) (prev : Option Char) (s m r : List Char), 1 ≤ lo →
      reMatchSeq (l1 ++ .cls p lo hi :: l2) prev s = some (m, r) →
      ∃ c ∈ m, p c = true := by
  intro l1
  induction l1 with
  | nil =>
    intro p lo hi l2 prev s m r hlo h
    rw [List.nil_append] at h
    obtain ⟨m1, m2, prev', rfl, hp, hlen, _⟩ := reMatchSeq_cls_decomp p lo hi l2 prev s m r h
    cases m1 with
    | nil => simp at hlen; omega
    | cons c m1' => exact ⟨c, by simp, hp c (by simp)⟩
  | cons e l1' ih =>
    intro p lo hi l2 prev s m r hlo h
    cases e with
    | wb =>
      rw [List.cons_append, reMatchSeq_wb] at h
      split at h
      · exact ih p lo hi l2 prev s m r hlo h
      · exact absurd h (by simp)
    | cls q lo' hi' =>
      rw [List.cons_append] at h
      obtain ⟨m1, m2, prev', rfl, _, _, h2⟩ :=
        reMatchSeq_cls_decomp q lo' hi' (l1' ++ .cls p lo hi :: l2) prev s m r h
      obtain ⟨c, hc, hpc⟩ := ih p lo hi l2 prev' (m2 ++ r) m2 r hlo h2
      exact ⟨c, by simp [hc], hpc⟩

theorem reFind_decomp (pat : List RElem) :
    ∀ (s : List Char) (prev : Option Char) (b m r : List Char),
      reFind pat prev s = some (b, m, r) →
      s = b ++ m ++ r ∧ ∃ prev', reMatchSeq pat prev' (m ++ r) = some (m, r) := by
  intro s
  induction s with
  | nil =>
    intro prev b m r h
    rw [reFind] at h
    cases hm : reMatchSeq pat prev [] with
    | none => rw [hm] at h; exact absurd h (by simp)
    | some pr =>
      obtain ⟨m0, rest⟩ := pr
      rw [hm] at h
      simp only [Option.some.injEq, Prod.mk.injEq] at h
      obtain ⟨rfl, rfl, rfl⟩ := h
      have hz : ([] : List Char) = m0 ++ rest := reMatchSeq_append pat _ _ _ _ hm
      constructor
      · simpa using hz.symm
      · exact ⟨prev, by rw [← hz]; exact hm⟩
  | cons c cs ih =>
    intro prev b m r h
    rw [reFind] at h
    cases hm : reMatchSeq pat prev (c :: cs) with
    | some pr =>
      obtain ⟨m0, rest⟩ := pr
      rw [hm] at h
      simp only [Option.some.injEq, Prod.mk.injEq] at h
      obtain ⟨rfl, rfl, rfl⟩ := h
      have hz : c :: cs = m0 ++ rest := reMatchSeq_append pat _ _ _ _ hm
      constructor
      · simpa using hz
      · exact ⟨prev, by rw [← hz]; exact hm⟩
    | none =>
      rw [hm] at h
      cases hf : reFind pat (some c) cs with
      | none => rw [hf] at h; exact absurd h (by simp)
      | some t =>
        obtain ⟨b', m0, rest⟩ := t
        rw [hf] at h
        simp only [Option.some.injEq, Prod.mk.injEq] at h
        obtain ⟨hb, hm2, hr2⟩ := h
        obtain ⟨hcs, hex⟩ := ih (some c) b' m0 rest hf
        rw [← hb, ← hm2, ← hr2]
        refine ⟨?_, hex⟩
        rw [hcs]
        simp

/-- A pattern with a mandatory character class never produces an empty
match. -/
theorem reFind_match_ne (pat l1 l2 : List RElem) (p : Char → Bool)
    (lo : Nat) (hi : Option Nat)
    (hpat : pat = l1 ++ .cls p lo hi :: l2) (hlo : 1 ≤ lo) :
    ∀ (prev : Option Char) (s b m r : List Char),
      reFind pat prev s = some (b, m, r) → m ≠ [] := by
  intro prev s b m r h hm0
  obtain ⟨-, prev', h2⟩ := reFind_decomp pat s prev b m r h
  rw [hpat] at h2
  obtain ⟨c, hc, -⟩ := reMatchSeq_hits l1 p lo hi l2 prev' _ m r hlo h2
  rw [hm0] at hc
  exact absurd hc (by simp)

theorem reReplAux_le (pat : List RElem)
    (hne : ∀ (prev : Option Char) (s b m r : List Char),
      reFind pat prev s = some (b, m, r) → m ≠ []) :
    ∀ (fuel : Nat) (prev : Option Char) (s : List Char),
      (reReplAux pat prev s fuel).length ≤ s.length := by
  intro fuel
  induction fuel with
  | zero => intro prev s; rw [reReplAux]
  | succ fuel ih =>
    intro prev s
    rw [reReplAux]
    cases hf : reFind pat prev s with
    | none => exact le_refl _
    | some t =>
      obtain ⟨b, m, r⟩ := t
      obtain ⟨hs, -⟩ := reFind_decomp pat s prev b m r hf
      have hm : m ≠ [] := hne prev s b m r hf
      have hm1 : 1 ≤ m.length := by
        cases m with
        | nil => exact absurd rfl hm
        | cons _ _ => simp
      have hrec := ih (newPrev (newPrev prev b) m) r
      rw [hs]
      simp only [List.length_append, List.length_cons]
      omega

theorem reReplaceAll_le (pat : List RElem)
    (hne : ∀ (prev : Option Char) (s b m r : List Char),
      reFind pat prev s = some (b, m, r) → m ≠ [])
    (s : List Char) : (reReplaceAll pat s).length ≤ s.length :=
  reReplAux_le pat hne _ none s

theorem stripPunct_length (s : List Char) : (stripPunct s).length = s.length := by
  simp [stripPunct]

theorem stripPunct_chars (s : List Char) :
    ∀ c ∈ stripPunct s, wordChar c = true ∨ spaceChar c = true := by
  intro c hc
  simp only [stripPunct, List.mem_map] at hc
  obtain ⟨a, _, rfl⟩ := hc
  by_cases h : wordChar a || spaceChar a
  · rw [if_pos h]
    simpa using h
  · rw [if_neg h]
    right; rfl

theorem collapseData_le : ∀ s : List Char, (collapseData s).length ≤ s.length := by
  intro s
  induction s with
  | nil => simp [collapseData]
  | cons c cs ih =>
    cases cs with
    | nil => by_cases h : spaceChar c <;> simp [collapseData, h]
    | cons d cs' =>
      rw [collapseData]
      by_cases h1 : spaceChar c
      · rw [if_pos h1]
        by_cases h2 : spaceChar d
        · rw [if_pos h2]
          simp only [List.length_cons] at *
          omega
        · rw [if_neg h2]
          simp only [List.length_cons] at *
          omega
      · rw [if_neg h1]
        simp only [List.length_cons] at *
        omega

theorem collapseData_chars :
    ∀ s : List Char, ∀ c ∈ collapseData s,
      c = ' ' ∨ (c ∈ s ∧ spaceChar c = false) := by
  intro s
  induction s with
  | nil => intro c hc; rw [collapseData] at hc; exact absurd hc (by simp)
  | cons a cs ih =>
    cases cs with
    | nil =>
      intro c hc
      by_cases h : spaceChar a
      · rw [collapseData, if_pos h] at hc
        rw [List.mem_singleton] at hc
        exact Or.inl hc
      · rw [collapseData, if_neg h] at hc
        rw [List.mem_singleton] at hc
        exact Or.inr ⟨by rw [hc]; exact List.mem_cons_self _ _, by rw [hc]; simpa using h⟩
    | cons d cs' =>
      intro c hc
      rw [collapseData] at hc
      by_cases h1 : spaceChar a
      · rw [if_pos h1] at hc
        by_cases h2 : spaceChar d
        · rw [if_pos h2] at hc
          rcases ih c hc with h3 | ⟨h3, h4⟩
          · exact Or.inl h3
          · exact Or.inr ⟨List.mem_cons_of_mem _ h3, h4⟩
        · rw [if_neg h2] at hc
          rcases List.mem_cons.mp hc with rfl | hc
          · exact Or.inl rfl
          · rcases ih c hc with h3 | ⟨h3, h4⟩
            · exact Or.inl h3
            · exact Or.inr ⟨List.mem_cons_of_mem _ h3, h4⟩
      · rw [if_neg h1] at hc
        rcases List.mem_cons.mp hc with rfl | hc
        · exact Or.inr ⟨List.mem_cons_self _ _, by simpa using h1⟩
        · rcases ih c hc with h3 | ⟨h3, h4⟩
          · exact Or.inl h3
          · exact Or.inr ⟨List.mem_cons_of_mem _ h3, h4⟩

theorem trimTrail_subset : ∀ s : List Char, ∀ c ∈ trimTrail s, c ∈ s := by
  intro s
  induction s with
  | nil => intro c hc; rw [trimTrail] at hc; exact absurd hc (by simp)
  | cons a cs ih =>
    intro c hc
    rw [trimTrail] at hc
    by_cases ht : trimTrail cs = []
    · rw [if_pos ht] at hc
      by_cases hsp : spaceChar a
      · rw [if_pos hsp] at hc; exact absurd hc (by simp)
      · rw [if_neg hsp] at hc
        rw [List.mem_singleton] at hc
        rw [hc]; exact List.mem_cons_self _ _
    · rw [if_neg ht] at hc
      rcases List.mem_cons.mp hc with rfl | hc
      · exact List.mem_cons_self _ _
      · exact List.mem_cons_of_mem _ (ih c hc)

theorem trimTrail_le : ∀ s : List Char, (trimTrail s).length ≤ s.length := by
  intro s
  induction s with
  | nil => rw [trimTrail]
  | cons a cs ih =>
    rw [trimTrail]
    by_cases ht : trimTrail cs = []
    · rw [if_pos ht]
      by_cases hsp : spaceChar a
      · rw [if_pos hsp]; simp
      · rw [if_neg hsp]; simp
    · rw [if_neg ht]
      simp only [List.length_cons]
      omega

theorem trimData_subset (s : List Char) : ∀ c ∈ trimData s, c ∈ s := by
  intro c hc
  rw [trimData] at hc
  exact (List.dropWhile_suffix spaceChar).sublist.subset (trimTrail_subset _ c hc)

theorem trimData_le (s : List Char) : (trimData s).length ≤ s.length := by
  rw [trimData]
  exact le_trans (trimTrail_le _) (List.dropWhile_suffix spaceChar).sublist.length_le

/-- The characters of the sanitizer output are word characters or plain
spaces. -/
theorem sanitize_chars (t : String) :
    ∀ c ∈ (sanitizeTextForInsights t).data, wordChar c = true ∨ c = ' ' := by
  intro c hc
  have hc2 : c ∈ collapseData (stripPunct
      (reReplaceAll longDigitsPat
        (reReplaceAll datePat
          (reReplaceAll phonePat
            (reReplaceAll emailPat
              (reReplaceAll urlPat
                (reReplaceAll mentionChanPat
                  (reReplaceAll mentionUserPat t.data)))))))) :=
    trimData_subset _ c hc
  rcases collapseData_chars _ c hc2 with h1 | ⟨h1, h2⟩
  · exact Or.inr h1
  · rcases stripPunct_chars _ c h1 with h3 | h3
    · exact Or.inl h3
    · rw [h3] at h2; exact absurd h2 (by simp)

theorem beginsWith_subset : ∀ m s : List Char, beginsWith m s = true → ∀ c ∈ m, c ∈ s := by
  intro m
  induction m with
  | nil => intro s _ c hc; exact absurd hc (by simp)
  | cons a as ih =>
    intro s h c hc
    cases s with
    | nil => rw [beginsWith] at h; exact absurd h (by simp)
    | cons b bs =>
      rw [beginsWith] at h
      simp only [Bool.and_eq_true, beq_iff_eq] at h
      obtain ⟨rfl, h2⟩ := h
      rcases List.mem_cons.mp hc with rfl | hc
      · exact List.mem_cons_self _ _
      · exact List.mem_cons_of_mem _ (ih bs h2 c hc)

theorem hasRun_subset : ∀ s m : List Char, hasRun m s = true → ∀ c ∈ m, c ∈ s := by
  intro s
  induction s with
  | nil =>
    intro m h c hc
    rw [hasRun] at h
    exact beginsWith_subset m [] h c hc
  | cons a as ih =>
    intro m h c hc
    rw [hasRun] at h
    rcases Bool.or_eq_true_iff.mp h with h1 | h1
    · exact beginsWith_subset m (a :: as) h1 c hc
    · exact List.mem_cons_of_mem _ (ih m h1 c hc)

theorem email_match_has_at (prev : Option Char) (s m r : List Char)
    (h : reMatchSeq emailPat prev s = some (m, r)) : ∃ c ∈ m, c = '@' := by
  have h' : reMatchSeq
      ([.cls (fun c => wordChar c || c = '.' || c = '+' || c = '-') 1 none] ++
        .cls (· = '@') 1 (some 1) ::
          [.cls (fun c => wordChar c || c = '.' || c = '-') 1 none]) prev s =
      some (m, r) := h
  obtain ⟨c, hc, hp⟩ := reMatchSeq_hits _ _ _ _ _ prev s m r (by omega) h'
  exact ⟨c, hc, by simpa using hp⟩

theorem url_match_has_colon (prev : Option Char) (s m r : List Char)
    (h : reMatchSeq urlPat prev s = some (m, r)) : ∃ c ∈ m, c = ':' := by
  have h' : reMatchSeq
      ([.cls (fun c => c = 'h' || c = 'H') 1 (some 1),
        .cls (fun c => c = 't' || c = 'T') 1 (some 1),
        .cls (fun c => c = 't' || c = 'T') 1 (some 1),
        .cls (fun c => c = 'p' || c = 'P') 1 (some 1),
        .cls (fun c => c = 's' || c = 'S') 0 (some 1)] ++
        .cls (· = ':') 1 (some 1) ::
          [.cls (· = '/') 1 (some 1), .cls (· = '/') 1 (some 1),
           .cls (fun c => !spaceChar c) 1 none]) prev s = some (m, r) := h
  obtain ⟨c, hc, hp⟩ := reMatchSeq_hits _ _ _ _ _ prev s m r (by omega) h'
  exact ⟨c, hc, by simpa using hp⟩

theorem mention_user_match_has_lt (prev : Option Char) (s m r : List Char)
    (h : reMatchSeq mentionUserPat prev s = some (m, r)) : ∃ c ∈ m, c = '<' := by
  have h' : reMatchSeq
      ([] ++ .cls (· = '<') 1 (some 1) ::
        [.cls (· = '@') 1 (some 1), .cls wordChar 1 none,
         .cls (· = '>') 1 (some 1)]) prev s = some (m, r) := h
  obtain ⟨c, hc, hp⟩ := reMatchSeq_hits _ _ _ _ _ prev s m r (by omega) h'
  exact ⟨c, hc, by simpa using hp⟩

theorem mention_chan_match_has_lt (prev : Option Char) (s m r : List Char)
    (h : reMatchSeq mentionChanPat prev s = some (m, r)) : ∃ c ∈ m, c = '<' := by
  have h' : reMatchSeq
      ([] ++ .cls (· = '<') 1 (some 1) ::
        [.cls (· = '#') 1 (some 1), .cls wordChar 1 none,
         .cls (· = '>') 1 (some 1)]) prev s = some (m, r) := h
  obtain ⟨c, hc, hp⟩ := reMatchSeq_hits _ _ _ _ _ prev s m r (by omega) h'
  exact ⟨c, hc, by simpa using hp⟩

/-- C10: the sanitizer never lengthens its input. -/
theorem sanitize_length_le (t : String) :
    (sanitizeTextForInsights t).length ≤ t.length := by
  show (sanitizeData t.data).length ≤ t.data.length
  have h1 := reFind_match_ne mentionUserPat []
    [.cls (· = '@') 1 (some 1), .cls wordChar 1 none, .cls (· = '>') 1 (some 1)]
    (· = '<') 1 (some 1) rfl (by omega)
  have h2 := reFind_match_ne mentionChanPat []
    [.cls (· = '#') 1 (some 1), .cls wordChar 1 none, .cls (· = '>') 1 (some 1)]
    (· = '<') 1 (some 1) rfl (by omega)
  have h3 := reFind_match_ne urlPat
    [.cls (fun c => c = 'h' || c = 'H') 1 (some 1),
     .cls (fun c => c = 't' || c = 'T') 1 (some 1),
     .cls (fun c => c = 't' || c = 'T') 1 (some 1),
     .cls (fun c => c = 'p' || c = 'P') 1 (some 1),
     .cls (fun c => c = 's' || c = 'S') 0 (some 1)]
    [.cls (· = '/') 1 (some 1), .cls (· = '/') 1 (some 1),
     .cls (fun c => !spaceChar c) 1 none]
    (· = ':') 1 (some 1) rfl (by omega)
  have h4 := reFind_match_ne emailPat
    [.cls (fun c => wordChar c || c = '.' || c = '+' || c = '-') 1 none]
    [.cls (fun c => wordChar c || c = '.' || c = '-') 1 none]
    (· = '@') 1 (some 1) rfl (by omega)
  have h5 := reFind_match_ne phonePat
    [.wb, .cls (· = '+') 0 (some 1)]
    [.cls sepChar 0 (some 1), .cls digitChar 2 (some 4), .cls sepChar 0 (some 1),
     .cls digitChar 3 (some 4), .cls sepChar 0 (some 1),
     .cls digitChar 0 (some 4), .wb]
    digitChar 1 (some 3) rfl (by omega)
  have h6 := reFind_match_ne datePat [.wb]
    [.cls dateSep 1 (some 1), .cls digitChar 1 (some 2), .cls dateSep 1 (some 1),
     .cls digitChar 2 (some 4), .wb]
    digitChar 1 (some 2) rfl (by omega)
  have h7 := reFind_match_ne longDigitsPat [.wb] [.wb] digitChar 4 none rfl (by omega)
  rw [sanitizeData]
  refine le_trans (trimData_le _) (le_trans (collapseData_le _) ?_)
  rw [stripPunct_length]
  refine le_trans (reReplaceAll_le longDigitsPat h7 _) ?_
  refine le_trans (reReplaceAll_le datePat h6 _) ?_
  refine le_trans (reReplaceAll_le phonePat h5 _) ?_
  refine le_trans (reReplaceAll_le emailPat h4 _) ?_
  refine le_trans (reReplaceAll_le urlPat h3 _) ?_
  refine le_trans (reReplaceAll_le mentionChanPat h2 _) ?_
  exact reReplaceAll_le mentionUserPat h1 _

/-- C2: any match of the email, URL or mention patterns never survives as a
contiguous run in the sanitizer output (so the output contains no platform
markup, URLs, or emails). -/
theorem sanitize_removes_matched_patterns (T : String) (prev : Option Char)
    (s m r : List Char)
    (h : reMatchSeq emailPat prev s = some (m, r) ∨
         reMatchSeq urlPat prev s = some (m, r) ∨
         reMatchSeq mentionUserPat prev s = some (m, r) ∨
         reMatchSeq mentionChanPat prev s = some (m, r)) :
    hasRun m (sanitizeTextForInsights T).data = false := by
  by_contra hcontra
  have htrue : hasRun m (sanitizeTextForInsights T).data = true := by
    cases hb : hasRun m (sanitizeTextForInsights T).data
    · exact absurd hb hcontra
    · rfl
  have hsub := hasRun_subset _ m htrue
  have hbad : ∃ c ∈ m, wordChar c = false ∧ c ≠ ' ' := by
    rcases h with h | h | h | h
    · obtain ⟨c, hc, rfl⟩ := email_match_has_at prev s m r h
      exact ⟨'@', hc, by decide, by decide⟩
    · obtain ⟨c, hc, rfl⟩ := url_match_has_colon prev s m r h
      exact ⟨':', hc, by decide, by decide⟩
    · obtain ⟨c, hc, rfl⟩ := mention_user_match_has_lt prev s m r h
      exact ⟨'<', hc, by decide, by decide⟩
    · obtain ⟨c, hc, rfl⟩ := mention_chan_match_has_lt prev s m r h
      exact ⟨'<', hc, by decide, by decide⟩
  obtain ⟨c, hc, hw, hsp⟩ := hbad
  rcases sanitize_chars T c (hsub c hc) with h1 | h1
  · rw [h1] at hw; exact absurd hw (by simp)
  · exact hsp h1

/-- Witness for C2 at a concrete email, URL and mention. -/
theorem sanitize_removes_matched_patterns_witness :
    reMatchSeq emailPat none "bob@work.co".data = some ("bob@work.co".data, []) ∧
    hasRun "bob@work.co".data
      (sanitizeTextForInsights "please mail bob@work.co today").data = false :=
  ⟨by decide,
   sanitize_removes_matched_patterns "please mail bob@work.co today" none
     "bob@work.co".data "bob@work.co".data [] (Or.inl (by decide))⟩

set_option maxHeartbeats 1600000 in
/-- C1 counterexample: sanitization is not idempotent.  On "12,34,567" the
punctuation strip turns the commas into spaces, and the resulting
"12 34 567" matches the phone-number pattern on the second pass. -/
theorem sanitize_not_idempotent :
    sanitizeTextForInsights (sanitizeTextForInsights "12,34,567") ≠
      sanitizeTextForInsights "12,34,567" := by decide

/-- Well-formed internal whitespace: every whitespace character is a plain
space and no two are adjacent. -/
def tidySpaces : List Char → Bool
  | [] => true
  | [c] => !spaceChar c || c = ' '
  | c :: d :: r => (!spaceChar c || (c = ' ' && !spaceChar d)) && tidySpaces (d :: r)

theorem tidy_tail (c : Char) (r : List Char)
    (h : tidySpaces (c :: r) = true) : tidySpaces r = true := by
  cases r with
  | nil => rfl
  | cons d r' =>
    rw [tidySpaces] at h
    exact (Bool.and_eq_true_iff.mp h).2

theorem collapse_cons_head (d : Char) (cs : List Char) (hd : spaceChar d = false) :
    ∃ t, collapseData (d :: cs) = d :: t := by
  cases cs with
  | nil =>
    rw [collapseData, if_neg (by rw [hd]; simp)]
    exact ⟨[], rfl⟩
  | cons e cs' =>
    rw [collapseData, if_neg (by rw [hd]; simp)]
    exact ⟨collapseData (e :: cs'), rfl⟩

theorem collapseData_id : ∀ s : List Char, tidySpaces s = true → collapseData s = s := by
  intro s
  induction s with
  | nil => intro _; rfl
  | cons c cs ih =>
    intro h
    cases cs with
    | nil =>
      rw [tidySpaces] at h
      rw [collapseData]
      by_cases hsp : spaceChar c
      · rw [hsp] at h
        simp only [Bool.not_true, Bool.false_or, decide_eq_true_eq] at h
        rw [if_pos hsp, h]
      · rw [if_neg hsp]
    | cons d cs' =>
      rw [tidySpaces] at h
      rw [Bool.and_eq_true_iff] at h
      obtain ⟨h1, h2⟩ := h
      rw [collapseData]
      by_cases hsp : spaceChar c
      · rw [hsp] at h1
        simp only [Bool.not_true, Bool.false_or, Bool.and_eq_true_iff,
          decide_eq_true_eq, Bool.not_eq_true'] at h1
        obtain ⟨hc, hdns⟩ := h1
        rw [if_pos hsp, if_neg (by rw [hdns]; simp), ih h2, hc]
      · rw [if_neg hsp, ih h2]

theorem tidy_collapse : ∀ s : List Char, tidySpaces (collapseData s) = true := by
  intro s
  induction s with
  | nil => rfl
  | cons c cs ih =>
    cases cs with
    | nil =>
      rw [collapseData]
      by_cases hsp : spaceChar c
      · rw [if_pos hsp]; rfl
      · rw [if_neg hsp]
        rw [tidySpaces]
        have hf : spaceChar c = false := by simpa using hsp
        simp [hf]
    | cons d cs' =>
      rw [collapseData]
      by_cases h1 : spaceChar c
      · rw [if_pos h1]
        by_cases h2 : spaceChar d
        · rw [if_pos h2]; exact ih
        · rw [if_neg h2]
          have hf : spaceChar d = false := by simpa using h2
          obtain ⟨t, ht⟩ := collapse_cons_head d cs' hf
          rw [ht]
          rw [ht] at ih
          rw [tidySpaces, Bool.and_eq_true_iff]
          refine ⟨?_, ih⟩
          simp [hf]
      · rw [if_neg h1]
        cases hX : collapseData (d :: cs') with
        | nil =>
          rw [tidySpaces]
          have hf : spaceChar c = false := by simpa using h1
          simp [hf]
        | cons e t =>
          rw [hX] at ih
          rw [tidySpaces, Bool.and_eq_true_iff]
          refine ⟨?_, ih⟩
          have hf : spaceChar c = false := by simpa using h1
          simp [hf]

theorem tidy_dropWhile (s : List Char) (h : tidySpaces s = true) :
    tidySpaces (s.dropWhile spaceChar) = true := by
  induction s with
  | nil => simpa using h
  | cons a as ih =>
    by_cases ha : spaceChar a
    · rw [List.dropWhile_cons, if_pos ha]
      exact ih (tidy_tail a as h)
    · rw [List.dropWhile_cons, if_neg ha]
      exact h

theorem dropWhile_head_not (l : List Char) :
    ∀ hd, (l.dropWhile spaceChar).head? = some hd → spaceChar hd = false := by
  induction l with
  | nil => intro hd h; simp [List.dropWhile] at h
  | cons a as ih =>
    intro hd h
    by_cases ha : spaceChar a
    · rw [List.dropWhile_cons, if_pos ha] at h
      exact ih hd h
    · rw [List.dropWhile_cons, if_neg ha] at h
      simp only [List.head?_cons, Option.some.injEq] at h
      rw [← h]
      simpa using ha

theorem dropWhile_id_of_head (s : List Char)
    (h : ∀ hd, s.head? = some hd → spaceChar hd = false) :
    s.dropWhile spaceChar = s := by
  cases s with
  | nil => rfl
  | cons a as =>
    rw [List.dropWhile_cons, if_neg (by rw [h a rfl]; simp)]

theorem trimTrail_head : ∀ (s : List Char) (d : Char) (r : List Char),
    trimTrail s = d :: r → ∃ r0, s = d :: r0 := by
  intro s
  cases s with
  | nil => intro d r h; rw [trimTrail] at h; exact absurd h (by simp)
  | cons a as =>
    intro d r h
    rw [trimTrail] at h
    by_cases ht : trimTrail as = []
    · rw [if_pos ht] at h
      by_cases hsp : spaceChar a
      · rw [if_pos hsp] at h; exact absurd h (by simp)
      · rw [if_neg hsp] at h
        simp only [List.cons.injEq] at h
        exact ⟨as, by rw [h.1]⟩
    · rw [if_neg ht] at h
      simp only [List.cons.injEq] at h
      exact ⟨as, by rw [h.1]⟩

theorem trimTrail_tidy : ∀ s : List Char, tidySpaces s = true →
    tidySpaces (trimTrail s) = true := by
  intro s
  induction s with
  | nil => intro _; rfl
  | cons a cs ih =>
    intro h
    rw [trimTrail]
    by_cases ht : trimTrail cs = []
    · rw [if_pos ht]
      by_cases hsp : spaceChar a
      · rw [if_pos hsp]; rfl
      · rw [if_neg hsp]
        rw [tidySpaces]
        have hf : spaceChar a = false := by simpa using hsp
        simp [hf]
    · rw [if_neg ht]
      cases hT : trimTrail cs with
      | nil => exact absurd hT ht
      | cons d r =>
        obtain ⟨r0, hcs⟩ := trimTrail_head cs d r hT
        have h2 : tidySpaces (trimTrail cs) = true := ih (tidy_tail a cs h)
        rw [hT] at h2
        rw [tidySpaces, Bool.and_eq_true_iff]
        refine ⟨?_, h2⟩
        rw [hcs] at h
        rw [tidySpaces, Bool.and_eq_true_iff] at h
        exact h.1

theorem trimTrail_last : ∀ (s : List Char) (d : Char),
    (trimTrail s).getLast? = some d → spaceChar d = false := by
  intro s
  induction s with
  | nil => intro d h; rw [trimTrail] at h; simp at h
  | cons a cs ih =>
    intro d h
    rw [trimTrail] at h
    by_cases ht : trimTrail cs = []
    · rw [if_pos ht] at h
      by_cases hsp : spaceChar a
      · rw [if_pos hsp] at h; simp at h
      · rw [if_neg hsp] at h
        simp only [List.getLast?_singleton, Option.some.injEq] at h
        rw [← h]
        simpa using hsp
    · rw [if_neg ht] at h
      cases hT : trimTrail cs with
      | nil => exact absurd hT ht
      | cons e r =>
        rw [hT] at h
        rw [List.getLast?_cons_cons] at h
        rw [← hT] at h
        exact ih d h

theorem trimTrail_id_of_last : ∀ s : List Char,
    (∀ d, s.getLast? = some d → spaceChar d = false) → trimTrail s = s := by
  intro s
  induction s with
  | nil => intro _; rfl
  | cons a cs ih =>
    intro h
    rw [trimTrail]
    cases cs with
    | nil =>
      rw [show trimTrail [] = [] from rfl, if_pos rfl]
      have ha : spaceChar a = false := h a (by simp)
      rw [if_neg (by rw [ha]; simp)]
    | cons b cs' =>
      have hcs : trimTrail (b :: cs') = b :: cs' := by
        apply ih
        intro d hd
        apply h
        rw [List.getLast?_cons_cons]
        cases cs' with
        | nil => simpa using hd
        | cons e cs2 => exact hd
      rw [if_neg (by rw [hcs]; simp), hcs]

/-- The sanitizer output has tidy whitespace and no space at either end. -/
theorem sanitize_output_clean (t : String) :
    tidySpaces (sanitizeTextForInsights t).data = true ∧
    (∀ hd, ((sanitizeTextForInsights t).data).head? = some hd → spaceChar hd = false) ∧
    (∀ d, ((sanitizeTextForInsights t).data).getLast? = some d → spaceChar d = false) := by
  have hdata : (sanitizeTextForInsights t).data =
      trimTrail ((collapseData (stripPunct
        (reReplaceAll longDigitsPat
          (reReplaceAll datePat
            (reReplaceAll phonePat
              (reReplaceAll emailPat
                (reReplaceAll urlPat
                  (reReplaceAll mentionChanPat
                    (reReplaceAll mentionUserPat t.data))))))))).dropWhile spaceChar) := rfl
  refine ⟨?_, ?_, ?_⟩
  · rw [hdata]
    exact trimTrail_tidy _ (tidy_dropWhile _ (tidy_collapse _))
  · intro hd h
    rw [hdata] at h
    cases hT : trimTrail ((collapseData _).dropWhile spaceChar) with
    | nil => rw [hT] at h; simp at h
    | cons e r =>
      rw [hT] at h
      simp only [List.head?_cons, Option.some.injEq] at h
      obtain ⟨r0, hr0⟩ := trimTrail_head _ e r hT
      apply dropWhile_head_not (collapseData (stripPunct
        (reReplaceAll longDigitsPat
          (reReplaceAll datePat
            (reReplaceAll phonePat
              (reReplaceAll emailPat
                (reReplaceAll urlPat
                  (reReplaceAll mentionChanPat
                    (reReplaceAll mentionUserPat t.data)))))))))
      rw [hr0, ← h]
      simp
  · intro d h
    rw [hdata] at h
    exact trimTrail_last _ d h

theorem reMatchSeq_none_of_absent (pat l1 l2 : List RElem) (p : Char → Bool)
    (lo : Nat) (hi : Option Nat)
    (hpat : pat = l1 ++ .cls p lo hi :: l2) (hlo : 1 ≤ lo)
    (prev : Option Char) (s : List Char) (hs : ∀ c ∈ s, p c = false) :
    reMatchSeq pat prev s = none := by
  cases hm : reMatchSeq pat prev s with
  | none => rfl
  | some pr =>
    obtain ⟨m, r⟩ := pr
    rw [hpat] at hm
    obtain ⟨c, hc, hpc⟩ := reMatchSeq_hits l1 p lo hi l2 prev s m r hlo hm
    have hcs : c ∈ s := by
      have hseq : s = m ++ r := reMatchSeq_append _ prev s m r hm
      rw [hseq]
      exact List.mem_append_left _ hc
    rw [hs c hcs] at hpc
    exact absurd hpc (by simp)

theorem reFind_none_of_absent (pat l1 l2 : List RElem) (p : Char → Bool)
    (lo : Nat) (hi : Option Nat)
    (hpat : pat = l1 ++ .cls p lo hi :: l2) (hlo : 1 ≤ lo) :
    ∀ s : List Char, (∀ c ∈ s, p c = false) →
      ∀ prev, reFind pat prev s = none := by
  intro s
  induction s with
  | nil =>
    intro hs prev
    rw [reFind, reMatchSeq_none_of_absent pat l1 l2 p lo hi hpat hlo prev [] hs]
  | cons c cs ih =>
    intro hs prev
    have h1 : reMatchSeq pat prev (c :: cs) = none :=
      reMatchSeq_none_of_absent pat l1 l2 p lo hi hpat hlo prev (c :: cs) hs
    have h2 : reFind pat (some c) cs = none :=
      ih (fun d hd => hs d (List.mem_cons_of_mem _ hd)) (some c)
    rw [reFind, h1, h2]

theorem reReplaceAll_id (pat : List RElem) (s : List Char)
    (h : reFind pat none s = none) : reReplaceAll pat s = s := by
  rw [reReplaceAll, reReplAux, h]

theorem stripPunct_id (s : List Char)
    (h : ∀ c ∈ s, wordChar c = true ∨ c = ' ') : stripPunct s = s := by
  induction s with
  | nil => rfl
  | cons c cs ih =>
    rw [stripPunct, List.map_cons]
    have hc : wordChar c || spaceChar c := by
      rcases h c (List.mem_cons_self _ _) with h1 | h1
      · rw [h1]; simp
      · rw [h1]; rfl
    rw [if_pos hc]
    have := ih (fun d hd => h d (List.mem_cons_of_mem _ hd))
    rw [stripPunct] at this
    rw [this]

/-- Amended C1: sanitization is idempotent on every input whose sanitized
form contains no digit (and only then can the punctuation strip expose new
phone/date/digit-run shapes on a second pass). -/
theorem sanitize_idempotent_no_digits (t : String)
    (h : ∀ c ∈ (sanitizeTextForInsights t).data, digitChar c = false) :
    sanitizeTextForInsights (sanitizeTextForInsights t) =
      sanitizeTextForInsights t := by
  obtain ⟨htidy, hhead, hlast⟩ := sanitize_output_clean t
  have hchars := sanitize_chars t
  set o := (sanitizeTextForInsights t).data with ho
  have hno : ∀ (x : Char), wordChar x = false → x ≠ ' ' → ∀ c ∈ o, decide (c = x) = false := by
    intro x hx hxs c hc
    apply decide_eq_false
    intro he
    rcases hchars c hc with hw | hw
    · rw [he] at hw; rw [hw] at hx; exact absurd hx (by simp)
    · rw [he] at hw; exact hxs hw
  have e1 : reReplaceAll mentionUserPat o = o :=
    reReplaceAll_id _ _ (reFind_none_of_absent mentionUserPat []
      [.cls (· = '@') 1 (some 1), .cls wordChar 1 none, .cls (· = '>') 1 (some 1)]
      (· = '<') 1 (some 1) rfl (by omega) o (hno '<' (by decide) (by decide)) none)
  have e2 : reReplaceAll mentionChanPat o = o :=
    reReplaceAll_id _ _ (reFind_none_of_absent mentionChanPat []
      [.cls (· = '#') 1 (some 1), .cls wordChar 1 none, .cls (· = '>') 1 (some 1)]
      (· = '<') 1 (some 1) rfl (by omega) o (hno '<' (by decide) (by decide)) none)
  have e3 : reReplaceAll urlPat o = o :=
    reReplaceAll_id _ _ (reFind_none_of_absent urlPat
      [.cls (fun c => c = 'h' || c = 'H') 1 (some 1),
       .cls (fun c => c = 't' || c = 'T') 1 (some 1),
       .cls (fun c => c = 't' || c = 'T') 1 (some 1),
       .cls (fun c => c = 'p' || c = 'P') 1 (some 1),
       .cls (fun c => c = 's' || c = 'S') 0 (some 1)]
      [.cls (· = '/') 1 (some 1), .cls (· = '/') 1 (some 1),
       .cls (fun c => !spaceChar c) 1 none]
      (· = ':') 1 (some 1) rfl (by omega) o (hno ':' (by decide) (by decide)) none)
  have e4 : reReplaceAll emailPat o = o :=
    reReplaceAll_id _ _ (reFind_none_of_absent emailPat
      [.cls (fun c => wordChar c || c = '.' || c = '+' || c = '-') 1 none]
      [.cls (fun c => wordChar c || c = '.' || c = '-') 1 none]
      (· = '@') 1 (some 1) rfl (by omega) o (hno '@' (by decide) (by decide)) none)
  have e5 : reReplaceAll phonePat o = o :=
    reReplaceAll_id _ _ (reFind_none_of_absent phonePat
      [.wb, .cls (· = '+') 0 (some 1)]
      [.cls sepChar 0 (some 1), .cls digitChar 2 (some 4), .cls sepChar 0 (some 1),
       .cls digitChar 3 (some 4), .cls sepChar 0 (some 1),
       .cls digitChar 0 (some 4), .wb]
      digitChar 1 (some 3) rfl (by omega) o h none)
  have e6 : reReplaceAll datePat o = o :=
    reReplaceAll_id _ _ (reFind_none_of_absent datePat [.wb]
      [.cls dateSep 1 (some 1), .cls digitChar 1 (some 2), .cls dateSep 1 (some 1),
       .cls digitChar 2 (some 4), .wb]
      digitChar 1 (some 2) rfl (by omega) o h none)
  have e7 : reReplaceAll longDigitsPat o = o :=
    reReplaceAll_id _ _ (reFind_none_of_absent longDigitsPat [.wb] [.wb]
      digitChar 4 none rfl (by omega) o h none)
  have e8 : stripPunct o = o := stripPunct_id o hchars
  have e9 : collapseData o = o := collapseData_id o htidy
  have e10 : o.dropWhile spaceChar = o := dropWhile_id_of_head o hhead
  have e11 : trimTrail o = o := trimTrail_id_of_last o hlast
  have hfix : sanitizeData o = o := by
    rw [sanitizeData, e1, e2, e3, e4, e5, e6, e7, e8, e9, trimData, e10, e11]
  show (⟨sanitizeData o⟩ : String) = ⟨o⟩
  rw [hfix]

set_option maxHeartbeats 1600000 in
/-- Witness for the amended C1 at a digit-free input. -/
theorem sanitize_idempotent_no_digits_witness :
    (∀ c ∈ (sanitizeTextForInsights "hello, world!").data, digitChar c = false) ∧
    sanitizeTextForInsights (sanitizeTextForInsights "hello, world!") =
      sanitizeTextForInsights "hello, world!" :=
  ⟨by decide, sanitize_idempotent_no_digits "hello, world!" (by decide)⟩

/-! The multi-label sentiment classifier of the later revisions
(`classifySentiment`, src/unnamed/part_002 lines 169-253, identical logic in
src/unnamed/part_000 lines 202-303). -/

/-- Split on whitespace runs and drop empty pieces:
`split(/\s+/).filter(Boolean)`. -/
def splitWsAux (cur : List Char) : List Char → List String
  | [] => if cur = [] then [] else [⟨cur.reverse⟩]
  | c :: cs =>
      if spaceChar c then
        (if cur = [] then splitWsAux [] cs else ⟨cur.reverse⟩ :: splitWsAux [] cs)
      else splitWsAux (c :: cur) cs

def splitWs (s : List Char) : List String := splitWsAux [] s

/-- Tokenization of `classifySentiment`: lowercase, replace everything
outside the letter/number/whitespace classes by a space (the Unicode
classes are modelled by ASCII alphanumerics), split on whitespace, drop
empty tokens. -/
def tokenize (text : String) : List String :=
  splitWs ((text.data.map Char.toLower).map
    (fun c => if c.isAlphanum || spaceChar c then c else ' '))

def NEGATORS : List String :=
  ["not", "don\x27t", "doesn\x27t", "isn\x27t", "aren\x27t", "won\x27t",
   "can\x27t", "couldn\x27t", "wouldn\x27t", "never", "no", "nope",
   "hardly", "barely"]

def INTENSIFIERS : List String :=
  ["very", "really", "extremely", "super", "incredibly", "highly", "deeply"]

def positiveWords : List (String × Nat) :=
  [("great", 2), ("excellent", 3), ("love", 3), ("amazing", 3), ("helpful", 1),
   ("appreciate", 2), ("awesome", 2), ("perfect", 3), ("wonderful", 3),
   ("happy", 2), ("excited", 1), ("good", 1), ("nice", 1), ("delighted", 2)]

def negativeWords : List (String × Nat) :=
  [("bad", 2), ("terrible", 3), ("awful", 3), ("frustrated", 2), ("angry", 2),
   ("annoyed", 1), ("confused", 1), ("stuck", 1), ("broken", 1), ("failing", 2),
   ("disappointed", 2), ("unsafe", 2), ("worried", 1), ("concerned", 1),
   ("problem", 1), ("issue", 1), ("toxic", 3)]

def burnoutWords : List (String × Nat) :=
  [("exhausted", 3), ("burnout", 3), ("overwhelmed", 3), ("tired", 1),
   ("drained", 2), ("overloaded", 2), ("stressed", 2), ("stress", 2)]

def attritionWords : List (String × Nat) :=
  [("quit", 3), ("quitting", 3), ("resign", 3), ("resigning", 3),
   ("resigned", 3), ("leaving", 2), ("leave", 1), ("exit", 2), ("departure", 2)]

def conflictWords : List (String × Nat) :=
  [("fight", 2), ("blame", 2), ("disagree", 1), ("conflict", 2),
   ("tension", 2), ("hostile", 3)]

def workloadWords : List (String × Nat) :=
  [("deadline", 1), ("pressure", 1), ("urgent", 1), ("overloaded", 2),
   ("swamped", 2), ("backlog", 1)]

def toolingWords : List (String × Nat) :=
  [("slow", 1), ("buggy", 1), ("broken", 1), ("failing", 2), ("error", 1),
   ("unstable", 1)]

def emotionalWords : List (String × Nat) :=
  [("anger", 2), ("fear", 2), ("anxious", 2), ("nervous", 1), ("excited", 1),
   ("grateful", 1), ("thankful", 1)]

/-- `WORDS[cat][token]` (a truthy lookup, all weights are ≥ 1). -/
def lookupWeight (lex : List (String × Nat)) (t : String) : Option Nat :=
  (lex.find? (fun e => e.1 = t)).map (·.2)

structure SentState where
  pos : Nat
  neg : Nat
  labels : List String
  deriving Repr, DecidableEq

/-- JavaScript `Set.add`: insertion order, no duplicates. -/
def addLabel (ls : List String) (l : String) : List String :=
  if l ∈ ls then ls else ls ++ [l]

def tokenAt (ts : List String) (i : Nat) : String := ts.getD i ""

/-- `tokens[i - j]`, which in JavaScript is `undefined` when `j > i`. -/
def prevTok (ts : List String) (i j : Nat) : Option String :=
  if j ≤ i then ts.get? (i - j) else none

/-- Intensifier multiplier: 2 when one of the two preceding tokens is an
intensifier, else 1. -/
def multAt (ts : List String) (i : Nat) : Nat :=
  if (prevTok ts i 1).elim false INTENSIFIERS.contains ||
     (prevTok ts i 2).elim false INTENSIFIERS.contains then 2 else 1

/-- Negation window: some negator among the previous 3 tokens. -/
def negInWindow (ts : List String) (i : Nat) : Bool :=
  (prevTok ts i 1).elim false NEGATORS.contains ||
  (prevTok ts i 2).elim false NEGATORS.contains ||
  (prevTok ts i 3).elim false NEGATORS.contains

/-- The `hit` helper for the polarity categories: on a lexicon hit, add
`weight * multiplier` to the own accumulator, or to the opposite one when a
negator occurs in the window. -/
def hitPolarity (isPos : Bool) (lex : List (String × Nat))
    (ts : List String) (i : Nat) (st : SentState) : SentState :=
  match lookupWeight lex (tokenAt ts i) with
  | none => st
  | some w =>
      let score := w * multAt ts i
      if negInWindow ts i then
        (if isPos then { st with neg := st.neg + score }
         else { st with pos := st.pos + score })
      else
        (if isPos then { st with pos := st.pos + score }
         else { st with neg := st.neg + score })

/-- The `hit` helper for the six non-polarity categories: a lexicon hit only
adds the category label. -/
def hitLabel (lex : List (String × Nat)) (lbl : String)
    (ts : List String) (i : Nat) (st : SentState) : SentState :=
  match lookupWeight lex (tokenAt ts i) with
  | none => st
  | some _ => { st with labels := addLabel st.labels lbl }

/-- One iteration of the `tokens.forEach` loop: the eight category hits in
source order. -/
def stepToken (ts : List String) (i : Nat) (st : SentState) : SentState :=
  hitLabel emotionalWords "emotional_signal" ts i
    (hitLabel toolingWords "tooling_frustration" ts i
      (hitLabel workloadWords "workload_pressure" ts i
        (hitLabel conflictWords "conflict_risk" ts i
          (hitLabel attritionWords "attrition_risk" ts i
            (hitLabel burnoutWords "burnout_risk" ts i
              (hitPolarity false negativeWords ts i
                (hitPolarity true positiveWords ts i st)))))))

def scanTokens (ts : List String) : SentState :=
  (List.range ts.length).foldl (fun st i => stepToken ts i st) ⟨0, 0, []⟩

/-- First escalation rule: burnout_risk with negScore above 2 adds
wellbeing_concern. -/
def escStep1 (neg : Nat) (ls : List String) : List String :=
  if "burnout_risk" ∈ ls ∧ neg > 2 then addLabel ls "wellbeing_concern" else ls

/-- Second escalation rule: attrition_risk with negScore above 1 adds
retention_flag. -/
def escStep2 (neg : Nat) (ls : List String) : List String :=
  if "attrition_risk" ∈ ls ∧ neg > 1 then addLabel ls "retention_flag" else ls

/-- Third escalation rule: conflict_risk with negScore above 1 adds
team_dynamics_issue. -/
def escStep3 (neg : Nat) (ls : List String) : List String :=
  if "conflict_risk" ∈ ls ∧ neg > 1 then addLabel ls "team_dynamics_issue" else ls

/-- Composite escalation after the scan: the three rules in source order,
each seeing the labels left by the previous one. -/
def escalate (st : SentState) : List String :=
  escStep3 st.neg (escStep2 st.neg (escStep1 st.neg st.labels))

structure SentimentResult where
  primary : String
  labels : List String
  deriving Repr, DecidableEq

/-- `classifySentiment` (part_002): the empty-input guard, the token scan,
the primary polarity, and the escalation labels. -/
def classifySentiment (text : String) : SentimentResult :=
  if text = "" then ⟨"neutral", []⟩
  else
    let st := scanTokens (tokenize text)
    ⟨if st.neg > st.pos then "negative"
      else if st.pos > st.neg then "positive" else "neutral",
     escalate st⟩

@[simp] theorem hitLabel_pos (lex : List (String × Nat)) (lbl : String)
    (ts : List String) (i : Nat) (st : SentState) :
    (hitLabel lex lbl ts i st).pos = st.pos := by
  rw [hitLabel]
  cases lookupWeight lex (tokenAt ts i) <;> rfl

@[simp] theorem hitLabel_neg (lex : List (String × Nat)) (lbl : String)
    (ts : List String) (i : Nat) (st : SentState) :
    (hitLabel lex lbl ts i st).neg = st.neg := by
  rw [hitLabel]
  cases lookupWeight lex (tokenAt ts i) <;> rfl

@[simp] theorem hitPolarity_labels (isPos : Bool) (lex : List (String × Nat))
    (ts : List String) (i : Nat) (st : SentState) :
    (hitPolarity isPos lex ts i st).labels = st.labels := by
  rw [hitPolarity]
  cases lookupWeight lex (tokenAt ts i)
  · rfl
  · cases isPos <;> cases negInWindow ts i <;> simp

theorem hitPolarity_flip_pos (lex : List (String × Nat))
    (ts : List String) (i : Nat) (st : SentState) (w : Nat)
    (h1 : lookupWeight lex (tokenAt ts i) = some w)
    (h3 : negInWindow ts i = true) :
    hitPolarity true lex ts i st = { st with neg := st.neg + w * multAt ts i } := by
  rw [hitPolarity, h1]
  simp [h3]

theorem hitPolarity_flip_neg (lex : List (String × Nat))
    (ts : List String) (i : Nat) (st : SentState) (w : Nat)
    (h1 : lookupWeight lex (tokenAt ts i) = some w)
    (h3 : negInWindow ts i = true) :
    hitPolarity false lex ts i st = { st with pos := st.pos + w * multAt ts i } := by
  rw [hitPolarity, h1]
  simp [h3]

theorem hitPolarity_none (isPos : Bool) (lex : List (String × Nat))
    (ts : List String) (i : Nat) (st : SentState)
    (h : lookupWeight lex (tokenAt ts i) = none) :
    hitPolarity isPos lex ts i st = st := by
  rw [hitPolarity, h]

theorem hitPolarity_plain_neg (lex : List (String × Nat))
    (ts : List String) (i : Nat) (st : SentState) (w : Nat)
    (h1 : lookupWeight lex (tokenAt ts i) = some w)
    (h3 : negInWindow ts i = false) :
    hitPolarity false lex ts i st = { st with neg := st.neg + w * multAt ts i } := by
  rw [hitPolarity, h1]
  simp [h3]

/-- C3: a polarity-lexicon token with a negator among the 3 preceding tokens
contributes its weighted score to the opposite accumulator, and
`classifySentiment "I am not happy"` has primary "negative". -/
theorem negation_flips_polarity :
    (∀ (ts : List String) (i : Nat) (st : SentState) (w : Nat),
        lookupWeight positiveWords (tokenAt ts i) = some w →
        lookupWeight negativeWords (tokenAt ts i) = none →
        negInWindow ts i = true →
        (stepToken ts i st).neg = st.neg + w * multAt ts i ∧
          (stepToken ts i st).pos = st.pos) ∧
    (∀ (ts : List String) (i : Nat) (st : SentState) (w : Nat),
        lookupWeight negativeWords (tokenAt ts i) = some w →
        lookupWeight positiveWords (tokenAt ts i) = none →
        negInWindow ts i = true →
        (stepToken ts i st).pos = st.pos + w * multAt ts i ∧
          (stepToken ts i st).neg = st.neg) ∧
    (classifySentiment "I am not happy").primary = "negative" := by
  refine ⟨?_, ?_, by decide⟩
  · intro ts i st w h1 h2 h3
    rw [stepToken, hitPolarity_flip_pos positiveWords ts i st w h1 h3,
      hitPolarity_none false negativeWords ts i _ h2]
    simp
  · intro ts i st w h1 h2 h3
    rw [stepToken, hitPolarity_none true positiveWords ts i st h2,
      hitPolarity_flip_neg negativeWords ts i st w h1 h3]
    simp

/-- Witness for C3: the flip at the concrete token list of "I am not happy"
(token "happy" at index 3, with negator "not" at index 2). -/
theorem negation_flips_polarity_witness :
    lookupWeight positiveWords (tokenAt ["i", "am", "not", "happy"] 3) = some 2 ∧
    negInWindow ["i", "am", "not", "happy"] 3 = true ∧
    (stepToken ["i", "am", "not", "happy"] 3 ⟨0, 0, []⟩).neg =
      0 + 2 * multAt ["i", "am", "not", "happy"] 3 ∧
    (classifySentiment "I am not happy").primary = "negative" :=
  ⟨by decide, by decide,
   (negation_flips_polarity.1 ["i", "am", "not", "happy"] 3 ⟨0, 0, []⟩ 2
     (by decide) (by decide) (by decide)).1,
   negation_flips_polarity.2.2⟩

/-- C4: the score of a lexicon token is weight times 2 exactly when one of
the two immediately preceding tokens is an intensifier, else times 1; so
"very angry and frustrated" scores strictly more negative than
"angry and frustrated". -/
theorem intensifier_doubles :
    (∀ (ts : List String) (i : Nat) (st : SentState) (w : Nat),
        lookupWeight negativeWords (tokenAt ts i) = some w →
        lookupWeight positiveWords (tokenAt ts i) = none →
        negInWindow ts i = false →
        (stepToken ts i st).neg = st.neg + w *
          (if (prevTok ts i 1).elim false INTENSIFIERS.contains ||
              (prevTok ts i 2).elim false INTENSIFIERS.contains
           then 2 else 1)) ∧
    (scanTokens (tokenize "very angry and frustrated")).neg >
      (scanTokens (tokenize "angry and frustrated")).neg := by
  refine ⟨?_, by decide⟩
  intro ts i st w h1 h2 h3
  rw [stepToken, hitPolarity_none true positiveWords ts i st h2,
    hitPolarity_plain_neg negativeWords ts i st w h1 h3]
  simp [multAt]

/-- Witness for C4: the doubled contribution of "angry" after "very". -/
theorem intensifier_doubles_witness :
    (stepToken ["very", "angry"] 1 ⟨0, 0, []⟩).neg = 0 + 2 * 2 ∧
    (scanTokens (tokenize "very angry and frustrated")).neg >
      (scanTokens (tokenize "angry and frustrated")).neg := by
  constructor
  · have h := intensifier_doubles.1 ["very", "angry"] 1 ⟨0, 0, []⟩ 2
      (by decide) (by decide) (by decide)
    rw [h]
    decide
  · exact intensifier_doubles.2

theorem addLabel_mem (ls : List String) (l x : String) :
    x ∈ addLabel ls l ↔ x ∈ ls ∨ x = l := by
  rw [addLabel]
  split
  · rename_i h
    constructor
    · exact Or.inl
    · rintro (hx | rfl)
      · exact hx
      · exact h
  · simp

theorem escIf_mem (cond : Prop) [Decidable cond] (ls : List String) (l x : String) :
    (x ∈ if cond then addLabel ls l else ls) ↔ x ∈ ls ∨ (x = l ∧ cond) := by
  split
  · rw [addLabel_mem]; tauto
  · tauto

theorem escStep1_mem_ne (neg : Nat) (ls : List String) (x : String)
    (hx : x ≠ "wellbeing_concern") : x ∈ escStep1 neg ls ↔ x ∈ ls := by
  rw [escStep1, escIf_mem]
  tauto

theorem escStep2_mem_ne (neg : Nat) (ls : List String) (x : String)
    (hx : x ≠ "retention_flag") : x ∈ escStep2 neg ls ↔ x ∈ ls := by
  rw [escStep2, escIf_mem]
  tauto

theorem escStep3_mem_ne (neg : Nat) (ls : List String) (x : String)
    (hx : x ≠ "team_dynamics_issue") : x ∈ escStep3 neg ls ↔ x ∈ ls := by
  rw [escStep3, escIf_mem]
  tauto

theorem escStep1_mem_well (neg : Nat) (ls : List String)
    (h : "wellbeing_concern" ∉ ls) :
    "wellbeing_concern" ∈ escStep1 neg ls ↔ ("burnout_risk" ∈ ls ∧ neg > 2) := by
  rw [escStep1, escIf_mem]
  tauto

theorem escStep2_mem_ret (neg : Nat) (ls : List String)
    (h : "retention_flag" ∉ ls) :
    "retention_flag" ∈ escStep2 neg ls ↔ ("attrition_risk" ∈ ls ∧ neg > 1) := by
  rw [escStep2, escIf_mem]
  tauto

theorem escStep3_mem_team (neg : Nat) (ls : List String)
    (h : "team_dynamics_issue" ∉ ls) :
    "team_dynamics_issue" ∈ escStep3 neg ls ↔ ("conflict_risk" ∈ ls ∧ neg > 1) := by
  rw [escStep3, escIf_mem]
  tauto

/-- The label vocabulary produced directly by the eight category hits. -/
def baseLabels : List String :=
  ["burnout_risk", "attrition_risk", "conflict_risk", "workload_pressure",
   "tooling_frustration", "emotional_signal"]

theorem hitLabel_labels_sub (lex : List (String × Nat)) (lbl : String)
    (ts : List String) (i : Nat) (st : SentState) (x : String)
    (hx : x ∈ (hitLabel lex lbl ts i st).labels) : x ∈ st.labels ∨ x = lbl := by
  rw [hitLabel] at hx
  cases h : lookupWeight lex (tokenAt ts i) with
  | none => rw [h] at hx; exact Or.inl hx
  | some w => rw [h] at hx; exact (addLabel_mem _ _ _).mp hx

theorem stepToken_labels_sub (ts : List String) (i : Nat) (st : SentState)
    (x : String) (hx : x ∈ (stepToken ts i st).labels) :
    x ∈ st.labels ∨ x ∈ baseLabels := by
  rw [stepToken] at hx
  rcases hitLabel_labels_sub _ _ _ _ _ _ hx with hx | rfl
  on_goal 2 => exact Or.inr (by decide)
  rcases hitLabel_labels_sub _ _ _ _ _ _ hx with hx | rfl
  on_goal 2 => exact Or.inr (by decide)
  rcases hitLabel_labels_sub _ _ _ _ _ _ hx with hx | rfl
  on_goal 2 => exact Or.inr (by decide)
  rcases hitLabel_labels_sub _ _ _ _ _ _ hx with hx | rfl
  on_goal 2 => exact Or.inr (by decide)
  rcases hitLabel_labels_sub _ _ _ _ _ _ hx with hx | rfl
  on_goal 2 => exact Or.inr (by decide)
  rcases hitLabel_labels_sub _ _ _ _ _ _ hx with hx | rfl
  on_goal 2 => exact Or.inr (by decide)
  rw [hitPolarity_labels, hitPolarity_labels] at hx
  exact Or.inl hx

theorem scan_labels_base (ts : List String) :
    ∀ x ∈ (scanTokens ts).labels, x ∈ baseLabels := by
  rw [scanTokens]
  suffices h : ∀ (is : List Nat) (st : SentState),
      (∀ x ∈ st.labels, x ∈ baseLabels) →
      ∀ x ∈ (is.foldl (fun st i => stepToken ts i st) st).labels,
        x ∈ baseLabels by
    exact h _ ⟨0, 0, []⟩ (by intro x hx; exact absurd hx (by simp))
  intro is
  induction is with
  | nil => intro st hst x hx; exact hst x hx
  | cons i is ih =>
    intro st hst x hx
    rw [List.foldl_cons] at hx
    refine ih (stepToken ts i st) ?_ x hx
    intro y hy
    rcases stepToken_labels_sub ts i st y hy with hy | hy
    · exact hst y hy
    · exact hy

/-- C5: after the scan, the primary is determined by comparing the two
accumulators, and each escalation label is present exactly when its base
label is present and the negative score clears its threshold. -/
theorem primary_and_escalation (text : String) :
    ((classifySentiment text).primary = "negative" ↔
      (scanTokens (tokenize text)).neg > (scanTokens (tokenize text)).pos) ∧
    ((classifySentiment text).primary = "positive" ↔
      (scanTokens (tokenize text)).pos > (scanTokens (tokenize text)).neg) ∧
    ((classifySentiment text).primary = "neutral" ↔
      (scanTokens (tokenize text)).pos = (scanTokens (tokenize text)).neg) ∧
    ("wellbeing_concern" ∈ (classifySentiment text).labels ↔
      ("burnout_risk" ∈ (classifySentiment text).labels ∧
        (scanTokens (tokenize text)).neg > 2)) ∧
    ("retention_flag" ∈ (classifySentiment text).labels ↔
      ("attrition_risk" ∈ (classifySentiment text).labels ∧
        (scanTokens (tokenize text)).neg > 1)) ∧
    ("team_dynamics_issue" ∈ (classifySentiment text).labels ↔
      ("conflict_risk" ∈ (classifySentiment text).labels ∧
        (scanTokens (tokenize text)).neg > 1)) := by
  by_cases htext : text = ""
  · subst htext
    decide
  · set st := scanTokens (tokenize text) with hst
    have hprim : (classifySentiment text).primary =
        (if st.neg > st.pos then "negative"
         else if st.pos > st.neg then "positive" else "neutral") := by
      rw [classifySentiment, if_neg htext]
    have hlab : (classifySentiment text).labels = escalate st := by
      rw [classifySentiment, if_neg htext]
    have hbase := scan_labels_base (tokenize text)
    rw [← hst] at hbase
    have hW : "wellbeing_concern" ∉ st.labels := fun hx =>
      absurd (hbase _ hx) (by decide)
    have hR : "retention_flag" ∉ st.labels := fun hx =>
      absurd (hbase _ hx) (by decide)
    have hT : "team_dynamics_issue" ∉ st.labels := fun hx =>
      absurd (hbase _ hx) (by decide)
    have hesc : escalate st = escStep3 st.neg (escStep2 st.neg (escStep1 st.neg st.labels)) := rfl
    have hBurn : "burnout_risk" ∈ escalate st ↔ "burnout_risk" ∈ st.labels := by
      rw [hesc, escStep3_mem_ne _ _ _ (by decide), escStep2_mem_ne _ _ _ (by decide),
        escStep1_mem_ne _ _ _ (by decide)]
    have hAttr : "attrition_risk" ∈ escalate st ↔ "attrition_risk" ∈ st.labels := by
      rw [hesc, escStep3_mem_ne _ _ _ (by decide), escStep2_mem_ne _ _ _ (by decide),
        escStep1_mem_ne _ _ _ (by decide)]
    have hConf : "conflict_risk" ∈ escalate st ↔ "conflict_risk" ∈ st.labels := by
      rw [hesc, escStep3_mem_ne _ _ _ (by decide), escStep2_mem_ne _ _ _ (by decide),
        escStep1_mem_ne _ _ _ (by decide)]
    have hWell : "wellbeing_concern" ∈ escalate st ↔
        ("burnout_risk" ∈ st.labels ∧ st.neg > 2) := by
      rw [hesc, escStep3_mem_ne _ _ _ (by decide), escStep2_mem_ne _ _ _ (by decide),
        escStep1_mem_well _ _ hW]
    have hRet : "retention_flag" ∈ escalate st ↔
        ("attrition_risk" ∈ st.labels ∧ st.neg > 1) := by
      rw [hesc, escStep3_mem_ne _ _ _ (by decide), escStep2_mem_ret _ _ ?_]
      · rw [escStep1_mem_ne _ _ _ (by decide)]
      · rw [escStep1_mem_ne _ _ _ (by decide)]
        exact hR
    have hTeam : "team_dynamics_issue" ∈ escalate st ↔
        ("conflict_risk" ∈ st.labels ∧ st.neg > 1) := by
      rw [hesc, escStep3_mem_team _ _ ?_]
      · rw [escStep2_mem_ne _ _ _ (by decide), escStep1_mem_ne _ _ _ (by decide)]
      · rw [escStep2_mem_ne _ _ _ (by decide), escStep1_mem_ne _ _ _ (by decide)]
        exact hT
    refine ⟨?_, ?_, ?_, ?_, ?_, ?_⟩
    · rw [hprim]
      by_cases h1 : st.neg > st.pos
      · rw [if_pos h1]; simp [h1]
      · rw [if_neg h1]
        constructor
        · intro hx
          by_cases h2 : st.pos > st.neg
          · rw [if_pos h2] at hx; exact absurd hx (by decide)
          · rw [if_neg h2] at hx; exact absurd hx (by decide)
        · intro hx; exact absurd hx h1
    · rw [hprim]
      by_cases h1 : st.neg > st.pos
      · rw [if_pos h1]
        constructor
        · intro hx; exact absurd hx (by decide)
        · intro hx; omega
      · rw [if_neg h1]
        by_cases h2 : st.pos > st.neg
        · rw [if_pos h2]; simp [h2]
        · rw [if_neg h2]
          constructor
          · intro hx; exact absurd hx (by decide)
          · intro hx; exact absurd hx h2
    · rw [hprim]
      by_cases h1 : st.neg > st.pos
      · rw [if_pos h1]
        constructor
        · intro hx; exact absurd hx (by decide)
        · intro hx; omega
      · rw [if_neg h1]
        by_cases h2 : st.pos > st.neg
        · rw [if_pos h2]
          constructor
          · intro hx; exact absurd hx (by decide)
          · intro hx; omega
        · rw [if_neg h2]
          constructor
          · intro _; omega
          · intro _; rfl
    · rw [hlab, hWell, hBurn]
    · rw [hlab, hRet, hAttr]
    · rw [hlab, hTeam, hConf]

/-! `extractKeywords` (server.js lines 263-286; identical logic in
src/unnamed/part_002 lines 140-160). -/

def digitsToNat (ds : List Char) : Nat :=
  ds.foldl (fun n c => n * 10 + (c.toNat - 48)) 0

/-- The syntactic part of `parseFloat`: sign, integer digits, fraction
digits and fraction length of the longest numeric prefix, or `none` (NaN)
when no digit is found. -/
def jsParseFloatParts (s : String) : Option (Bool × Nat × Nat × Nat) :=
  let cs0 := s.data.dropWhile spaceChar
  let neg := match cs0 with | '-' :: _ => true | _ => false
  let cs := match cs0 with | '-' :: r => r | '+' :: r => r | _ => cs0
  let intPart := cs.takeWhile Char.isDigit
  let rest := cs.dropWhile Char.isDigit
  let fracPart := match rest with
    | '.' :: r => r.takeWhile Char.isDigit
    | _ => []
  if intPart = [] ∧ fracPart = [] then none
  else some (neg, digitsToNat intPart, digitsToNat fracPart, fracPart.length)

def jsParseFloat (s : String) : Option ℚ :=
  (jsParseFloatParts s).map (fun q =>
    (if q.1 then -1 else 1) * ((q.2.1 : ℚ) + (q.2.2.1 : ℚ) / (10 : ℚ) ^ q.2.2.2))

/-- The syntactic part of `parseInt` in base 10. -/
def jsParseIntParts (s : String) : Option (Bool × Nat) :=
  let cs0 := s.data.dropWhile spaceChar
  let neg := match cs0 with | '-' :: _ => true | _ => false
  let cs := match cs0 with | '-' :: r => r | '+' :: r => r | _ => cs0
  let ds := cs.takeWhile Char.isDigit
  if ds = [] then none
  else some (neg, digitsToNat ds)

def jsParseInt (s : String) : Option Int :=
  (jsParseIntParts s).map (fun q => (if q.1 then -1 else 1) * (q.2 : Int))

/-- `ENV_VAR || "default"`: an unset or empty variable falls back to the
default string. -/
def envOr (v : Option String) (d : String) : String :=
  match v with
  | none => d
  | some s => if s = "" then d else s

/-- `INSIGHTS_SAMPLE` (server.js lines 26-30): parse, fall back to 0.25 on
NaN, clamp to the unit interval. -/
def INSIGHTS_SAMPLE (env : Option String) : ℚ :=
  match jsParseFloat (envOr env "0.25") with
  | none => 0.25
  | some v => min 1 (max 0 v)

/-- `INSIGHTS_MAX_LEN` (server.js lines 32-36). -/
def INSIGHTS_MAX_LEN (env : Option String) : Int :=
  match jsParseInt (envOr env "1500") with
  | none => 1500
  | some v => if v ≤ 0 then 1500 else v

/-- `INSIGHTS_MIN_LEN` (server.js lines 38-42). -/
def INSIGHTS_MIN_LEN (env : Option String) : Int :=
  match jsParseInt (envOr env "20") with
  | none => 20
  | some v => if v ≤ 0 then 20 else v

/-- `INSIGHTS_SAMPLE` of src/unnamed/part_002 line 116:
`Math.min(1, Math.max(0, parseFloat(... || "1.0")))` — NaN propagates
through `Math.max`/`Math.min`, so a non-numeric value stays NaN. -/
def INSIGHTS_SAMPLE_p2 (env : Option String) : Option ℚ :=
  (jsParseFloat (envOr env "1.0")).map (fun v => min 1 (max 0 v))

/-- `INSIGHTS_MAX_LEN` of src/unnamed/part_002 line 117: a bare `parseInt`
with no NaN fallback. -/
def INSIGHTS_MAX_LEN_p2 (env : Option String) : Option Int :=
  jsParseInt (envOr env "1500")

/-- `INSIGHTS_MIN_LEN` of src/unnamed/part_002 line 118. -/
def INSIGHTS_MIN_LEN_p2 (env : Option String) : Option Int :=
  jsParseInt (envOr env "20")

/-- C8: in server.js every unset or non-numeric configuration value falls
back to its documented default and the sample rate is always clamped to
the unit interval, but in the part_002 revision a non-numeric
INSIGHTS_MAX_CHARS or INSIGHTS_SAMPLE_RATE yields NaN instead of the
default — the code bug behind this claim. -/
theorem config_defaults :
    (∀ env, 0 ≤ INSIGHTS_SAMPLE env ∧ INSIGHTS_SAMPLE env ≤ 1) ∧
    INSIGHTS_SAMPLE none = 0.25 ∧ INSIGHTS_SAMPLE (some "abc") = 0.25 ∧
    INSIGHTS_MAX_LEN none = 1500 ∧ INSIGHTS_MAX_LEN (some "abc") = 1500 ∧
    INSIGHTS_MIN_LEN none = 20 ∧ INSIGHTS_MIN_LEN (some "abc") = 20 ∧
    INSIGHTS_MAX_LEN_p2 (some "abc") = none ∧
    INSIGHTS_SAMPLE_p2 (some "abc") = none ∧
    INSIGHTS_MIN_LEN_p2 (some "abc") = none := by
  have hq : jsParseFloatParts (envOr none "0.25") = some (false, 0, 25, 2) := by
    decide
  have hq2 : jsParseFloatParts (envOr (some "abc") "0.25") = none := by decide
  have hq3 : jsParseIntParts (envOr none "1500") = some (false, 1500) := by decide
  have hq4 : jsParseIntParts (envOr (some "abc") "1500") = none := by decide
  have hq5 : jsParseIntParts (envOr none "20") = some (false, 20) := by decide
  have hq6 : jsParseIntParts (envOr (some "abc") "20") = none := by decide
  have hq7 : jsParseFloatParts (envOr (some "abc") "1.0") = none := by decide
  refine ⟨?_, ?_, ?_, ?_, ?_, ?_, ?_, ?_, ?_, ?_⟩
  · intro env
    rw [INSIGHTS_SAMPLE]
    cases jsParseFloat (envOr env "0.25") with
    | none => norm_num
    | some v =>
      constructor
      · exact le_min (by norm_num) (le_max_left 0 v)
      · exact min_le_left 1 _
  · rw [INSIGHTS_SAMPLE, jsParseFloat, hq]
    norm_num
  · rw [INSIGHTS_SAMPLE, jsParseFloat, hq2]
    rfl
  · rw [INSIGHTS_MAX_LEN, jsParseInt, hq3]
    norm_num
  · rw [INSIGHTS_MAX_LEN, jsParseInt, hq4]
    rfl
  · rw [INSIGHTS_MIN_LEN, jsParseInt, hq5]
    norm_num
  · rw [INSIGHTS_MIN_LEN, jsParseInt, hq6]
    rfl
  · rw [INSIGHTS_MAX_LEN_p2, jsParseInt, hq4]
    rfl
  · rw [INSIGHTS_SAMPLE_p2, jsParseFloat, hq7]
    rfl
  · rw [INSIGHTS_MIN_LEN_p2, jsParseInt, hq6]
    rfl

/-! The message value domain and the eligibility gate
(`isEligibleForInsights`, server.js lines 150-186).  `JsVal` covers the
JavaScript values a message event can be: null, booleans, numbers,
strings, and objects; a missing field is `none`. -/

inductive JsVal where
  | vnull
  | vbool (b : Bool)
  | vnum (q : ℚ)
  | vstr (s : String)
  | vobj (fields : List (String × JsVal))

def isObj : JsVal → Bool
  | .vobj _ => true
  | _ => false

def getField : JsVal → String → Option JsVal
  | .vobj fs, k => (fs.find? (fun e => e.1 = k)).map (·.2)
  | _, _ => none

/-- JavaScript truthiness of a possibly missing value. -/
def jsTruthy : Option JsVal → Bool
  | none => false
  | some .vnull => false
  | some (.vbool b) => b
  | some (.vnum q) => !(q = 0)
  | some (.vstr s) => !(s = "")
  | some (.vobj _) => true

/-- `typeof v === "string" ? v : undefined`. -/
def getStr : Option JsVal → Option String
  | some (.vstr s) => some s
  | _ => none

/-- `v === "channel"` (strict equality with a string literal). -/
def isChannelString : Option JsVal → Bool
  | some (.vstr s) => s = "channel"
  | _ => false

/-- `isPublicChannel` (server.js lines 150-162). -/
def isPublicChannel (m : JsVal) : Bool :=
  if jsTruthy (getField m "channel_type") &&
      !isChannelString (getField m "channel_type") then false
  else
    match getStr (getField m "channel") with
    | some s => if !(s.startsWith "C") then false else true
    | none => true

/-- `message.subtype === lit`. -/
def isSubtypeStr (m : JsVal) (lit : String) : Bool :=
  match getStr (getField m "subtype") with
  | some t => t = lit
  | none => false

def systemSubtypes : List String :=
  ["channel_join", "channel_leave", "channel_topic", "channel_purpose"]

/-- One `:\w+:` emoji shortcode followed by optional whitespace. -/
def eatEmojiGroup : List Char → Option (List Char)
  | ':' :: rest =>
      if rest.takeWhile wordChar = [] then none
      else
        match rest.dropWhile wordChar with
        | ':' :: r2 => some (r2.dropWhile spaceChar)
        | _ => none
  | _ => none

def emojiOnlyAux : Nat → List Char → Bool
  | 0, _ => false
  | fuel + 1, s =>
      match eatEmojiGroup s with
      | none => false
      | some [] => true
      | some rest => emojiOnlyAux fuel rest

/-- `/^(:\w+:\s*)+$/.test(s)`: one or more emoji shortcodes separated only
by whitespace and nothing else. -/
def emojiOnly (s : List Char) : Bool := emojiOnlyAux (s.length + 1) s

/-- `isEligibleForInsights` (server.js lines 165-186). -/
def isEligibleForInsights (m : JsVal) : Bool :=
  if !isObj m then false
  else if !isPublicChannel m then false
  else if jsTruthy (getField m "bot_id") || isSubtypeStr m "bot_message" then false
  else if isSubtypeStr m "file_share" then false
  else if (match getStr (getField m "subtype") with
           | some s => systemSubtypes.contains s
           | none => false) then false
  else
    let text := (getStr (getField m "text")).getD ""
    if (splitWs text.data).length < 4 then false
    else if emojiOnly (trimData text.data) then false
    else true

/-- C9: the eligibility gate is a total boolean predicate; null and
non-object inputs, and objects without a string text field, are rejected
rather than raising. -/
theorem isEligible_total :
    (∀ v : JsVal, isObj v = false → isEligibleForInsights v = false) ∧
    (∀ fields : List (String × JsVal),
      getStr (getField (.vobj fields) "text") = none →
      isEligibleForInsights (.vobj fields) = false) := by
  constructor
  · intro v hv
    rw [isEligibleForInsights, hv]
    rfl
  · intro fs h
    rw [isEligibleForInsights]
    split
    · rfl
    · split
      · rfl
      · split
        · rfl
        · split
          · rfl
          · split
            · rfl
            · rw [h]
              decide

/-- Witness for C9 at null and at an object with no text field. -/
theorem isEligible_total_witness :
    isObj .vnull = false ∧ isEligibleForInsights .vnull = false ∧
    getStr (getField (.vobj [("channel", .vstr "C123")]) "text") = none ∧
    isEligibleForInsights (.vobj [("channel", .vstr "C123")]) = false :=
  ⟨by decide, isEligible_total.1 .vnull (by decide), by decide,
   isEligible_total.2 [("channel", .vstr "C123")] (by decide)⟩

/-- `isNumericOrDateOnly` (server.js lines 189-201). -/
def numericDateChar (c : Char) : Bool :=
  c.isDigit || spaceChar c || c = ':' || c = '/' || c = '-' || c = '.' || c = ','

def isNumericOrDateOnly (t : String) : Bool :=
  if t = "" then false
  else
    let trimmed := trimData t.data
    if trimmed = [] then false
    else trimmed.all numericDateChar && trimmed.any Char.isDigit

/-- The outbound-request count of `processInsightsSignal` (server.js lines
331-436) as a function of the configuration, the random draw, the message,
and the embedding service outcome: the sampling gate, the eligibility gate,
the empty/truncation/sanitization/length/noise gates, then one embedding
request when LOVABLE_API_KEY is set (`getEmbedding`, lines 294-328, returns
null without any request otherwise) and one ingest request when the
embedding is non-null. -/
def insightsOutboundCalls (sample : ℚ) (maxLen minLen : Nat) (haveApiKey : Bool)
    (rnd : ℚ) (msg : JsVal) (embedResult : Option (List ℚ)) : Nat :=
  if sample ≤ 0 then 0
  else if rnd > sample then 0
  else if !isEligibleForInsights msg then 0
  else
    let rawText := (getStr (getField msg "text")).getD ""
    if trimData rawText.data = [] then 0
    else
      let rawText2 : String :=
        if rawText.length > maxLen then ⟨rawText.data.take maxLen⟩ else rawText
      let sanitized := sanitizeTextForInsights rawText2
      if sanitized = "" then 0
      else if sanitized.length < minLen then 0
      else if isNumericOrDateOnly sanitized then 0
      else
        match (if haveApiKey then embedResult else none), haveApiKey with
        | none, true => 1
        | none, false => 0
        | some _, true => 2
        | some _, false => 1

/-- C7: with the configured sample rate equal to 0, `processInsightsSignal`
makes no outbound request for any message, any random draw, and any
embedding-service behaviour: the `INSIGHTS_SAMPLE <= 0` gate returns before
`Math.random()` is even consulted. -/
theorem sample_zero_no_calls (env : Option String) (maxLen minLen : Nat)
    (k : Bool) (rnd : ℚ) (msg : JsVal) (emb : Option (List ℚ))
    (h : INSIGHTS_SAMPLE env = 0) :
    insightsOutboundCalls (INSIGHTS_SAMPLE env) maxLen minLen k rnd msg emb = 0 := by
  unfold insightsOutboundCalls
  rw [if_pos (le_of_eq h)]

/-- Witness for C7: rate parsed from "0", an eligible message, a random
draw of exactly 0, and an available embedding still produce zero calls. -/
theorem sample_zero_no_calls_witness :
    INSIGHTS_SAMPLE (some "0") = 0 ∧
    insightsOutboundCalls (INSIGHTS_SAMPLE (some "0")) 1500 20 true 0
      (.vobj [("channel", .vstr "C1"), ("channel_type", .vstr "channel"),
              ("text", .vstr "we are all really quite unhappy here")])
      (some [1]) = 0 := by
  have h : INSIGHTS_SAMPLE (some "0") = 0 := by
    have hq : jsParseFloatParts (envOr (some "0") "0.25") = some (false, 0, 0, 0) := by
      decide
    rw [INSIGHTS_SAMPLE, jsParseFloat, hq]
    norm_num
  exact ⟨h, sample_zero_no_calls (some "0") 1500 20 true 0 _ _ h⟩

end SlackBridge
